import Mathlib

set_option maxRecDepth 8000

/- Shallow embedding of src/skills/youtube-watcher/scripts/get_transcript.py.
   Python strings are modelled as lists of characters (with a String wrapper
   for the top-level function); each Python str method used by the script is
   modelled by a helper function below. -/

/-- Model of the whitespace class stripped by Python str.strip and matched by
the regex class backslash-s (the common whitespace code points; exotic Unicode
space code points are not needed by any claim). -/
def isPySpace (c : Char) : Bool :=
  c = ' ' || c = '\t' || c = '\n' || c = '\r' || c = '\x0b' || c = '\x0c' ||
  c = '\x1c' || c = '\x1d' || c = '\x1e' || c = '\x85' || c = '\xa0' ||
  c = ' ' || c = ' '

/-- Line boundary characters recognised by Python str.splitlines
(carriage-return line-feed is handled as a single boundary in the splitter). -/
def isLineBreakChar (c : Char) : Bool :=
  c = '\n' || c = '\r' || c = '\x0b' || c = '\x0c' ||
  c = '\x1c' || c = '\x1d' || c = '\x1e' || c = '\x85' ||
  c = ' ' || c = ' '

/-- Worker for splitlines: acc holds the characters of the current line in
reverse. A trailing line is emitted only if it is nonempty, matching Python
str.splitlines, which produces no final empty line for a trailing break. -/
def splitlinesAux : List Char → List Char → List (List Char)
  | acc, [] => if acc.isEmpty then [] else [acc.reverse]
  | acc, [c] =>
    if isLineBreakChar c then acc.reverse :: splitlinesAux [] []
    else splitlinesAux (c :: acc) []
  | acc, c :: d :: rest =>
    if isLineBreakChar c then
      if c = '\r' ∧ d = '\n' then acc.reverse :: splitlinesAux [] rest
      else acc.reverse :: splitlinesAux [] (d :: rest)
    else splitlinesAux (c :: acc) (d :: rest)

/-- Model of Python content.splitlines(). -/
def splitlines (l : List Char) : List (List Char) :=
  splitlinesAux [] l

/-- Model of Python line.strip(): drop whitespace from both ends. -/
def pyStrip (l : List Char) : List Char :=
  ((l.dropWhile isPySpace).reverse.dropWhile isPySpace).reverse

/-- Model of Python line.isdigit(): nonempty and all digits (the source only
ever meets ASCII digits; other Unicode digit code points are not modelled). -/
def pyIsDigitStr (l : List Char) : Bool :=
  !l.isEmpty && l.all Char.isDigit

/-- Consume exactly n characters satisfying p, returning the remainder. -/
def matchCount (p : Char → Bool) : Nat → List Char → Option (List Char)
  | 0, l => some l
  | _ + 1, [] => none
  | n + 1, c :: rest => if p c then matchCount p n rest else none

/-- Consume exactly the character a, returning the remainder. -/
def matchSym (a : Char) : List Char → Option (List Char)
  | [] => none
  | c :: rest => if c = a then some rest else none

/-- Consume a clock of the regex shape dd:dd:dd.ddd, returning the remainder. -/
def matchClock (l : List Char) : Option (List Char) :=
  Option.bind (matchCount Char.isDigit 2 l) (fun r1 =>
  Option.bind (matchSym ':' r1) (fun r2 =>
  Option.bind (matchCount Char.isDigit 2 r2) (fun r3 =>
  Option.bind (matchSym ':' r3) (fun r4 =>
  Option.bind (matchCount Char.isDigit 2 r4) (fun r5 =>
  Option.bind (matchSym '.' r5) (fun r6 =>
  matchCount Char.isDigit 3 r6))))))

/-- Model of timestamp_pattern.match(line): an anchored-at-start search for
clock, one whitespace, the arrow, one whitespace, clock; trailing text after
the match is ignored, exactly as re.match does. -/
def tsMatch (l : List Char) : Bool :=
  (Option.bind (matchClock l) (fun r1 =>
   Option.bind (matchCount isPySpace 1 r1) (fun r2 =>
   Option.bind (matchSym '-' r2) (fun r3 =>
   Option.bind (matchSym '-' r3) (fun r4 =>
   Option.bind (matchSym '>' r4) (fun r5 =>
   Option.bind (matchCount isPySpace 1 r5) (fun r6 =>
   matchClock r6))))))).isSome

/-- Left-to-right scanner for re.sub applied to the tag pattern: less-than,
one or more characters other than greater-than, then greater-than, each match
replaced by nothing. The state none means outside any candidate match; the
state some buf means a less-than was seen and buf holds (reversed) the
candidate content read since. A candidate closed on a greater-than with
nonempty content is a match and is dropped; an immediately following
greater-than (empty content) or the end of the line is not a match and the
scanned characters are emitted literally, as the regex engine does. -/
def stripAux : Option (List Char) → List Char → List Char
  | none, [] => []
  | none, c :: rest =>
    if c = '<' then stripAux (some []) rest else c :: stripAux none rest
  | some buf, [] => '<' :: buf.reverse
  | some buf, c :: rest =>
    if c = '>' then
      if buf.isEmpty then '<' :: '>' :: stripAux none rest
      else stripAux none rest
    else stripAux (some (c :: buf)) rest

/-- Model of re.sub of the tag pattern with the empty replacement. -/
def stripTags (l : List Char) : List Char :=
  stripAux none l

/-- Body of the for loop of clean_vtt, one input line per call; textLines is
the accumulator of stored lines. Mirrors the source statement for statement:
strip, the three structural discard tests, the duplicate test against the
last stored line, tag removal, append. -/
def cleanStep (textLines : List (List Char)) (rawLine : List Char) :
    List (List Char) :=
  let line := pyStrip rawLine
  if line.isEmpty || line == ("WEBVTT").data || pyIsDigitStr line then
    textLines
  else if tsMatch line then
    textLines
  else if List.isPrefixOf (("NOTE").data) line ||
          List.isPrefixOf (("STYLE").data) line then
    textLines
  else if textLines.getLast? == some line then
    textLines
  else
    textLines ++ [stripTags line]

/-- The loop of clean_vtt over the split lines (the set named seen in the
source is created and never used, so it is not modelled). -/
def cleanVttLines (ls : List (List Char)) : List (List Char) :=
  List.foldl cleanStep [] ls

/-- Model of the newline join producing the return value of clean_vtt. -/
def joinLines : List (List Char) → List Char
  | [] => []
  | [l] => l
  | l :: m :: rest => l ++ '\n' :: joinLines (m :: rest)

/-- Model of clean_vtt from the source: split into lines, run the cleaning
loop, join the stored lines with newlines. -/
def clean_vtt (content : String) : String :=
  String.mk (joinLines (cleanVttLines (splitlines content.data)))

/-- Combined structural discard test of the loop (trimmed-line form): a line
passes exactly when none of the three discard conditions of the source fires.
Used to state claims about lines that survive the structural checks. -/
def keptLine (line : List Char) : Bool :=
  !(line.isEmpty || line == ("WEBVTT").data || pyIsDigitStr line) &&
  !tsMatch line &&
  !(List.isPrefixOf (("NOTE").data) line ||
    List.isPrefixOf (("STYLE").data) line)

/-- Outcome of the external fetch step as the script observes it: the tool is
absent (FileNotFoundError), the tool exited nonzero (CalledProcessError, with
the captured standard error of the tool), or the tool succeeded and the glob
over the working directory produced the given subtitle file contents, in
discovery order. -/
inductive FetchOutcome where
  | toolMissing : FetchOutcome
  | toolFailed (toolStderr : String) : FetchOutcome
  | ran (vttFiles : List String) : FetchOutcome

/-- Observable result of the process: exit code together with the text written
to standard output and to standard error. -/
structure ProcReport where
  exitCode : Nat
  stdoutText : String
  stderrText : String

/-- Model of get_transcript from the source. Each failure branch writes one
diagnostic to standard error and calls sys.exit(1); the success branch prints
the cleaned first subtitle file to standard output (print appends a newline)
and the process later exits normally with code 0. Every branch is final:
there is no retry and no fallback path in the source. -/
def get_transcript : FetchOutcome → ProcReport
  | FetchOutcome.toolMissing =>
    ⟨1, "", "Error: yt-dlp not found. Please install it."⟩
  | FetchOutcome.toolFailed e =>
    ⟨1, "", "Error running yt-dlp: " ++ e⟩
  | FetchOutcome.ran [] =>
    ⟨1, "", "No subtitles found."⟩
  | FetchOutcome.ran (f :: _) =>
    ⟨0, clean_vtt f ++ "\n", ""⟩

/-- Carried prefix of the tag scanner: the characters the scanner would emit
literally if the input ended in the current state. -/
def stripAuxCarry : Option (List Char) → List Char
  | none => []
  | some buf => '<' :: buf.reverse

/-- Executable check that no two adjacent entries of a line list are equal. -/
def noAdjacentDup : List (List Char) → Bool
  | [] => true
  | [_] => true
  | a :: b :: rest => a != b && noAdjacentDup (b :: rest)

/-! Characterisation of one loop iteration. -/

/-- A line that passes the three structural discard tests is stored (after
tag removal) unless its trimmed form equals the last stored line. -/
theorem cleanStep_kept (tl : List (List Char)) (raw : List Char)
    (h : keptLine (pyStrip raw) = true) :
    cleanStep tl raw =
      if tl.getLast? = some (pyStrip raw) then tl
      else tl ++ [stripTags (pyStrip raw)] := by
  have h' := h
  simp only [keptLine, Bool.and_eq_true, Bool.not_eq_true'] at h'
  obtain ⟨⟨h1, h2⟩, h3⟩ := h'
  by_cases hd : tl.getLast? = some (pyStrip raw)
  · simp [cleanStep, h1, h2, h3, hd]
  · simp [cleanStep, h1, h2, h3, hd]

/-- A line on which one of the three structural discard tests fires is
dropped, whatever the accumulator holds. -/
theorem cleanStep_discard (tl : List (List Char)) (raw : List Char)
    (h : keptLine (pyStrip raw) = false) :
    cleanStep tl raw = tl := by
  simp only [keptLine, Bool.and_eq_false_iff, Bool.not_eq_false'] at h
  rcases h with (h | h) | h <;> simp [cleanStep, h]

/-! Claim theorems, first batch. -/

/-- Claim C3: clean_vtt on the end-to-end example document returns exactly the
two dialogue lines, the adjacent pair of Hello-there lines collapsed to one. -/
theorem clean_vtt_example_document :
    clean_vtt ("WEBVTT\n\n1\n00:00:00.000 --> 00:00:02.000\nHello <i>there</i>\n\n2\n00:00:02.000 --> 00:00:04.000\nHello there\n\nNOTE this is a comment\nGeneral Kenobi")
      = "Hello there\nGeneral Kenobi" := by
  decide

/-- Claim C4: clean_vtt is total. It is a plain function of the whole input
domain, so it terminates with some output string on every input and raises
nothing; on the empty document it returns the empty string. -/
theorem clean_vtt_total :
    clean_vtt ("") = "" ∧ ∀ s : String, ∃ t : String, clean_vtt s = t :=
  ⟨rfl, fun s => ⟨clean_vtt s, rfl⟩⟩

/-- Claim C5: a trimmed line that is exactly the well-formed timing range is
always discarded, while the similar line without milliseconds fails the
timestamp pattern and is processed as an ordinary dialogue line (stored
unchanged unless it duplicates the last stored line). -/
theorem timestamp_line_well_formed_vs_malformed :
    (∀ (tl : List (List Char)) (raw : List Char),
      pyStrip raw = ("00:00:01.000 --> 00:00:04.000").data →
      cleanStep tl raw = tl) ∧
    (∀ (tl : List (List Char)) (raw : List Char),
      pyStrip raw = ("00:00:01 --> 00:00:04").data →
      cleanStep tl raw =
        if tl.getLast? = some (("00:00:01 --> 00:00:04").data) then tl
        else tl ++ [("00:00:01 --> 00:00:04").data]) := by
  constructor
  · intro tl raw h
    apply cleanStep_discard
    rw [h]; decide
  · intro tl raw h
    rw [cleanStep_kept tl raw (by rw [h]; decide), h]
    have hs : stripTags (("00:00:01 --> 00:00:04").data)
        = ("00:00:01 --> 00:00:04").data := by decide
    rw [hs]

/-- Witness for C5 at the empty accumulator and the two literal lines. -/
theorem timestamp_line_well_formed_vs_malformed_witness :
    cleanStep [] (("00:00:01.000 --> 00:00:04.000").data) = [] ∧
    cleanStep [] (("00:00:01 --> 00:00:04").data)
      = [("00:00:01 --> 00:00:04").data] := by
  constructor
  · exact timestamp_line_well_formed_vs_malformed.1 [] _ (by decide)
  · exact (timestamp_line_well_formed_vs_malformed.2 [] _ (by decide)).trans
      (by decide)

/-- Claim C8: a line that survives the structural checks and whose stored form
is empty after tag removal is still appended; it is suppressed only when the
duplicate test fires, which compares the trimmed line itself against the last
stored line. -/
theorem empty_after_strip_still_appended :
    ∀ (tl : List (List Char)) (raw : List Char),
      keptLine (pyStrip raw) = true → stripTags (pyStrip raw) = [] →
      (tl.getLast? = some (pyStrip raw) → cleanStep tl raw = tl) ∧
      (tl.getLast? ≠ some (pyStrip raw) → cleanStep tl raw = tl ++ [[]]) := by
  intro tl raw hk hs
  rw [cleanStep_kept tl raw hk]
  constructor
  · intro h; rw [if_pos h]
  · intro h; rw [if_neg h, hs]

/-- Witness for C8: a pure-tag line is appended as the empty line. -/
theorem empty_after_strip_still_appended_witness :
    cleanStep [] (("<i></i>").data) = [] ++ [[]] :=
  (empty_after_strip_still_appended [] _ (by decide) (by decide)).2 (by decide)

/-- Claim C9: each of the three fetch failure modes (tool missing, tool exit
nonzero, zero subtitle files) ends the process with exit code 1 and its own
diagnostic on standard error, while a successful fetch with at least one file
exits with code 0; no branch retries or falls back. -/
theorem get_transcript_failure_modes :
    (get_transcript FetchOutcome.toolMissing).exitCode = 1 ∧
    (get_transcript FetchOutcome.toolMissing).stderrText
      = "Error: yt-dlp not found. Please install it." ∧
    (∀ e : String,
      (get_transcript (FetchOutcome.toolFailed e)).exitCode = 1 ∧
      (get_transcript (FetchOutcome.toolFailed e)).stderrText
        = "Error running yt-dlp: " ++ e) ∧
    (get_transcript (FetchOutcome.ran [])).exitCode = 1 ∧
    (get_transcript (FetchOutcome.ran [])).stderrText = "No subtitles found." ∧
    (∀ (f : String) (fs : List String),
      (get_transcript (FetchOutcome.ran (f :: fs))).exitCode = 0) :=
  ⟨rfl, rfl, fun _ => ⟨rfl, rfl⟩, rfl, rfl, fun _ _ => rfl⟩

/-- Counterexample to claim C1 as stated: two consecutive lines that differ
only in their tags do not collapse, because the duplicate test runs before
tag removal; the cleaned output keeps both copies. -/
theorem dedup_before_strip_counterexample :
    clean_vtt ("<b>Hi</b>\n<i>Hi</i>") = "Hi\nHi" ∧
    clean_vtt ("<b>Hi</b>\n<i>Hi</i>") ≠ "Hi" := by
  decide

/-- Amended claim C1: the duplicate test compares the trimmed, not yet
tag-stripped line against the last stored (already stripped) line; over a
two-line document of lines surviving the structural checks, the second line
is suppressed exactly when its trimmed form equals the stored form of the
first, and otherwise both stripped forms are stored. -/
theorem dedup_compares_unstripped_line :
    ∀ a b : List Char, keptLine (pyStrip a) = true → keptLine (pyStrip b) = true →
      cleanVttLines [a, b] =
        if pyStrip b = stripTags (pyStrip a) then [stripTags (pyStrip a)]
        else [stripTags (pyStrip a), stripTags (pyStrip b)] := by
  intro a b ha hb
  show List.foldl cleanStep [] [a, b] = _
  simp only [List.foldl]
  rw [cleanStep_kept [] a ha]
  rw [if_neg (by simp)]
  rw [cleanStep_kept ([] ++ [stripTags (pyStrip a)]) b hb]
  by_cases hdup : pyStrip b = stripTags (pyStrip a)
  · rw [if_pos hdup, if_pos (by simp [hdup])]
    simp
  · have hne : ¬ stripTags (pyStrip a) = pyStrip b := fun hh => hdup hh.symm
    rw [if_neg hdup, if_neg (by simpa using hne)]
    simp

/-- Witness for amended C1: two lines equal up to tags are both stored and
produce adjacent equal stored lines. -/
theorem dedup_compares_unstripped_line_witness :
    cleanVttLines [("<b>Hi</b>").data, ("<i>Hi</i>").data]
      = [("Hi").data, ("Hi").data] :=
  (dedup_compares_unstripped_line _ _ (by decide) (by decide)).trans (by decide)

/-- Counterexample to claim C2 as stated: the cleaned output of the two-line
tagged document holds the same line twice in direct succession. -/
theorem adjacent_duplicate_in_output_counterexample :
    noAdjacentDup (splitlines ((clean_vtt ("<b>Hi</b>\n<i>Hi</i>")).data))
      = false := by
  decide

/-- Counterexample to claim C6 as stated: the tag pattern requires at least
one character of content, so an empty pair of brackets is not removed. -/
theorem empty_tag_not_removed_counterexample :
    clean_vtt ("a<>b") = "a<>b" ∧ clean_vtt ("a<>b") ≠ "ab" := by
  decide

/-! Properties of the tag scanner. -/

/-- Outside a candidate match, an ordinary character is emitted unchanged. -/
theorem stripAux_none_cons_ne (c : Char) (rest : List Char) (h : ¬ c = '<') :
    stripAux none (c :: rest) = c :: stripAux none rest := by
  simp [stripAux, h]

/-- A candidate that never closes is emitted literally. -/
theorem stripAux_some_no_gt :
    ∀ (w buf : List Char), (∀ c ∈ w, ¬ c = '>') →
      stripAux (some buf) w = '<' :: buf.reverse ++ w := by
  intro w
  induction w with
  | nil => intro buf _; simp [stripAux]
  | cons c w ih =>
    intro buf h
    have hc : ¬ c = '>' := h c (List.mem_cons_self c w)
    rw [show stripAux (some buf) (c :: w) = stripAux (some (c :: buf)) w by
      simp [stripAux, hc]]
    rw [ih (c :: buf) (fun d hd => h d (List.mem_cons_of_mem c hd))]
    simp

/-- A candidate that closes at the first greater-than is dropped when its
content is nonempty and emitted literally when the content is empty. -/
theorem stripAux_some_gt :
    ∀ (w buf rest : List Char), (∀ c ∈ w, ¬ c = '>') →
      stripAux (some buf) (w ++ '>' :: rest) =
        if buf.isEmpty ∧ w = [] then '<' :: '>' :: stripAux none rest
        else stripAux none rest := by
  intro w
  induction w with
  | nil =>
    intro buf rest _
    by_cases hb : buf.isEmpty
    · simp [stripAux, hb]
    · simp [stripAux, hb]
  | cons c w ih =>
    intro buf rest h
    have hc : ¬ c = '>' := h c (List.mem_cons_self c w)
    rw [show stripAux (some buf) ((c :: w) ++ '>' :: rest)
        = stripAux (some (c :: buf)) (w ++ '>' :: rest) by simp [stripAux, hc]]
    rw [ih (c :: buf) rest (fun d hd => h d (List.mem_cons_of_mem c hd))]
    simp

/-- Split a list at its first greater-than character. -/
theorem exists_first_gt :
    ∀ l : List Char, '>' ∈ l →
      ∃ w r, l = w ++ '>' :: r ∧ ∀ c ∈ w, ¬ c = '>' := by
  intro l
  induction l with
  | nil => intro h; exact absurd h (List.not_mem_nil _)
  | cons c rest ih =>
    intro h
    by_cases hc : c = '>'
    · exact ⟨[], rest, by simp [hc], by simp⟩
    · have hm : '>' ∈ rest := by
        rcases List.mem_cons.mp h with h1 | h2
        · exact absurd h1.symm hc
        · exact h2
      obtain ⟨w, r, hl, hw⟩ := ih hm
      refine ⟨c :: w, r, by simp [hl], ?_⟩
      intro d hd
      rcases List.mem_cons.mp hd with h1 | h2
      · rw [h1]; exact hc
      · exact hw d h2

/-- One pass of the tag scanner leaves no further match: a second pass is the
identity on its output (bounded form for the induction on length). -/
theorem stripTags_idem_bounded :
    ∀ (n : Nat) (l : List Char), l.length ≤ n →
      stripTags (stripTags l) = stripTags l := by
  intro n
  induction n with
  | zero =>
    intro l hl
    have hnil : l = [] := List.eq_nil_of_length_eq_zero (Nat.le_zero.mp hl)
    subst hnil; rfl
  | succ n ih =>
    intro l hl
    match l with
    | [] => rfl
    | c :: rest =>
      by_cases hc : c = '<'
      · subst hc
        have hstep : stripTags ('<' :: rest) = stripAux (some []) rest := by
          simp [stripTags, stripAux]
        by_cases hg : '>' ∈ rest
        · obtain ⟨w, r, hwr, hw⟩ := exists_first_gt rest hg
          subst hwr
          by_cases hweq : w = []
          · subst hweq
            have h1 : stripTags ('<' :: ([] ++ '>' :: r))
                = '<' :: '>' :: stripTags r := by
              rw [hstep, stripAux_some_gt [] [] r (by simp)]
              simp [stripTags]
            have h2 : ∀ X : List Char,
                stripTags ('<' :: '>' :: X) = '<' :: '>' :: stripTags X := by
              intro X; simp [stripTags, stripAux]
            have hr : r.length ≤ n := by simp at hl; omega
            rw [h1, h2, ih r hr]
          · have h1 : stripTags ('<' :: (w ++ '>' :: r)) = stripTags r := by
              rw [hstep, stripAux_some_gt w [] r hw]
              simp [hweq, stripTags]
            have hr : r.length ≤ n := by simp at hl; omega
            rw [h1]
            exact ih r hr
        · have hw : ∀ c ∈ rest, ¬ c = '>' := fun d hd heq => hg (heq ▸ hd)
          have h1 : stripTags ('<' :: rest) = '<' :: rest := by
            rw [hstep, stripAux_some_no_gt rest [] hw]
            simp
          rw [h1, h1]
      · have h1 : ∀ X, stripTags (c :: X) = c :: stripTags X := fun X => by
          simp [stripTags, stripAux, hc]
        have hr : rest.length ≤ n := by simp at hl; omega
        rw [h1, h1, ih rest hr]

/-- The tag scanner is idempotent. -/
theorem stripTags_idem (l : List Char) :
    stripTags (stripTags l) = stripTags l :=
  stripTags_idem_bounded l.length l (le_refl _)

/-- Amended claim C6, general part plus the concrete example of the claim: a
bracketed group with nonempty content free of greater-than characters is
removed wherever it occurs, and the example line of the claim is cleaned to
the expected text. -/
theorem tags_with_nonempty_content_removed :
    (∀ a w b : List Char, (∀ c ∈ a, ¬ c = '<') → w ≠ [] →
      (∀ c ∈ w, ¬ c = '>') →
      stripTags (a ++ '<' :: (w ++ '>' :: b)) = a ++ stripTags b) ∧
    clean_vtt ("<b>Hello</b> world") = "Hello world" := by
  constructor
  · intro a w b ha hw hwgt
    induction a with
    | nil =>
      simp only [List.nil_append]
      rw [show stripTags ('<' :: (w ++ '>' :: b))
          = stripAux (some []) (w ++ '>' :: b) by simp [stripTags, stripAux]]
      rw [stripAux_some_gt w [] b hwgt]
      simp [hw, stripTags]
    | cons c a ih =>
      have hc : ¬ c = '<' := ha c (List.mem_cons_self c a)
      simp only [List.cons_append]
      rw [show stripTags (c :: (a ++ '<' :: (w ++ '>' :: b)))
          = c :: stripTags (a ++ '<' :: (w ++ '>' :: b)) from
        stripAux_none_cons_ne c _ hc]
      rw [ih (fun d hd => ha d (List.mem_cons_of_mem c hd))]
  · decide

/-- Witness for amended C6 at concrete surrounding text, tag content and
remainder. -/
theorem tags_with_nonempty_content_removed_witness :
    stripTags (("ab").data ++ '<' :: (("i").data ++ '>' :: ("cd").data))
      = ("ab").data ++ stripTags (("cd").data) :=
  tags_with_nonempty_content_removed.1 _ _ _ (by decide) (by decide) (by decide)

/-! The duplicate-suppression invariant on tag-free documents. -/

/-- Fold invariant: when every remaining line is unchanged by tag removal
after trimming, the loop preserves the absence of adjacent duplicates in the
accumulator. -/
theorem foldl_cleanStep_chain :
    ∀ (ls acc : List (List Char)),
      (∀ l ∈ ls, stripTags (pyStrip l) = pyStrip l) →
      List.Chain' (· ≠ ·) acc →
      List.Chain' (· ≠ ·) (List.foldl cleanStep acc ls) := by
  intro ls
  induction ls with
  | nil => intro acc _ hacc; exact hacc
  | cons l ls ih =>
    intro acc h hacc
    rw [List.foldl_cons]
    apply ih _ (fun d hd => h d (List.mem_cons_of_mem _ hd))
    by_cases hk : keptLine (pyStrip l) = true
    · rw [cleanStep_kept acc l hk]
      by_cases hd : acc.getLast? = some (pyStrip l)
      · rw [if_pos hd]; exact hacc
      · rw [if_neg hd, h l (List.mem_cons_self _ _)]
        rw [List.chain'_append]
        refine ⟨hacc, List.chain'_singleton _, ?_⟩
        intro x hx y hy
        simp only [List.head?, Option.mem_def, Option.some.injEq] at hy
        subst hy
        intro hxy
        exact hd (by rw [← hxy]; exact Option.mem_def.mp hx)
    · rw [cleanStep_discard acc l (by simpa using hk)]
      exact hacc

/-- Once the last stored line equals the trimmed form of a line, any number
of immediate repetitions of that line is suppressed without storing. -/
theorem foldl_cleanStep_replicate_skip :
    ∀ (n : Nat) (acc : List (List Char)) (l : List Char),
      keptLine (pyStrip l) = true → acc.getLast? = some (pyStrip l) →
      List.foldl cleanStep acc (List.replicate n l) = acc := by
  intro n
  induction n with
  | zero => intro acc l _ _; rfl
  | succ n ih =>
    intro acc l hk hd
    rw [List.replicate_succ, List.foldl_cons, cleanStep_kept acc l hk,
      if_pos hd]
    exact ih acc l hk hd

/-- Amended claim C2, in three parts, for lines that are fixed points of tag
removal after trimming. First, the cleaned line sequence of any such document
never holds two equal lines in direct succession. Second, immediate duplicate
dialogue lines collapse to exactly one stored copy: a document made of one or
more repetitions of one surviving line stores that line once. Third,
duplicates separated by a distinct retained line are both retained: for
distinct surviving dialogue lines the document a, b, a stores all three. -/
theorem clean_dedup_is_adjacent_only_when_tagfree :
    (∀ x : String,
      (∀ l ∈ splitlines x.data, stripTags (pyStrip l) = pyStrip l) →
      List.Chain' (· ≠ ·) (cleanVttLines (splitlines x.data))) ∧
    (∀ (l : List Char) (n : Nat),
      keptLine (pyStrip l) = true → stripTags (pyStrip l) = pyStrip l →
      cleanVttLines (List.replicate (n + 1) l) = [pyStrip l]) ∧
    (∀ a b : List Char,
      keptLine (pyStrip a) = true → keptLine (pyStrip b) = true →
      stripTags (pyStrip a) = pyStrip a → stripTags (pyStrip b) = pyStrip b →
      ¬ pyStrip a = pyStrip b →
      cleanVttLines [a, b, a] = [pyStrip a, pyStrip b, pyStrip a]) := by
  refine ⟨?_, ?_, ?_⟩
  · intro x h
    exact foldl_cleanStep_chain (splitlines x.data) [] h List.chain'_nil
  · intro l n hk hst
    show List.foldl cleanStep [] (List.replicate (n + 1) l) = _
    rw [List.replicate_succ, List.foldl_cons, cleanStep_kept [] l hk,
      if_neg (by simp), hst]
    simp only [List.nil_append]
    exact foldl_cleanStep_replicate_skip n [pyStrip l] l hk (by simp)
  · intro a b hka hkb hsa hsb hne
    have hne' : ¬ pyStrip b = pyStrip a := fun h => hne h.symm
    show List.foldl cleanStep [] [a, b, a] = _
    simp only [List.foldl]
    rw [cleanStep_kept [] a hka, if_neg (by simp), hsa]
    rw [cleanStep_kept ([] ++ [pyStrip a]) b hkb,
      if_neg (by simpa using hne), hsb]
    rw [cleanStep_kept ([] ++ [pyStrip a] ++ [pyStrip b]) a hka,
      if_neg (by simpa using hne'), hsa]
    simp

/-- Witness for amended C2: a document with an adjacent duplicate pair and a
non-adjacent duplicate has no equal adjacent output lines; a run of two equal
dialogue lines stores one copy; the pattern a, b, a stores all three lines. -/
theorem clean_dedup_is_adjacent_only_when_tagfree_witness :
    List.Chain' (· ≠ ·) (cleanVttLines (splitlines (("a\na\nb\na").data))) ∧
    cleanVttLines (List.replicate 2 (("a").data)) = [pyStrip (("a").data)] ∧
    cleanVttLines [("a").data, ("b").data, ("a").data]
      = [pyStrip (("a").data), pyStrip (("b").data), pyStrip (("a").data)] :=
  ⟨clean_dedup_is_adjacent_only_when_tagfree.1 ("a\na\nb\na") (by decide),
   clean_dedup_is_adjacent_only_when_tagfree.2.1 (("a").data) 1 (by decide)
     (by decide),
   clean_dedup_is_adjacent_only_when_tagfree.2.2 (("a").data) (("b").data)
     (by decide) (by decide) (by decide) (by decide) (by decide)⟩

/-! The timestamp test is a prefix match. -/

/-- A successful fixed-count parse is stable under appending a suffix. -/
theorem matchCount_append :
    ∀ (p : Char → Bool) (n : Nat) (l r s : List Char),
      matchCount p n l = some r → matchCount p n (l ++ s) = some (r ++ s) := by
  intro p n
  induction n with
  | zero =>
    intro l r s h
    simp only [matchCount] at h ⊢
    rw [Option.some.injEq] at h
    rw [h]
  | succ n ih =>
    intro l r s h
    match l with
    | [] => simp [matchCount] at h
    | c :: rest =>
      rw [show matchCount p (n + 1) (c :: rest)
          = if p c then matchCount p n rest else none from rfl] at h
      by_cases hp : p c
      · rw [if_pos hp] at h
        rw [List.cons_append, show matchCount p (n + 1) (c :: (rest ++ s))
            = if p c then matchCount p n (rest ++ s) else none from rfl,
          if_pos hp]
        exact ih rest r s h
      · rw [if_neg hp] at h
        exact absurd h (by simp)

/-- A successful single-symbol parse is stable under appending a suffix. -/
theorem matchSym_append :
    ∀ (a : Char) (l r s : List Char),
      matchSym a l = some r → matchSym a (l ++ s) = some (r ++ s) := by
  intro a l r s h
  match l with
  | [] => simp [matchSym] at h
  | c :: rest =>
    rw [show matchSym a (c :: rest) = if c = a then some rest else none
      from rfl] at h
    by_cases hc : c = a
    · rw [if_pos hc, Option.some.injEq] at h
      subst h
      rw [List.cons_append, show matchSym a (c :: (rest ++ s))
          = if c = a then some (rest ++ s) else none from rfl, if_pos hc]
    · rw [if_neg hc] at h
      exact absurd h (by simp)

/-- A successful clock parse is stable under appending a suffix. -/
theorem matchClock_append :
    ∀ (l r s : List Char),
      matchClock l = some r → matchClock (l ++ s) = some (r ++ s) := by
  intro l r s h
  simp only [matchClock, Option.bind_eq_some] at h
  obtain ⟨r1, h1, r2, h2, r3, h3, r4, h4, r5, h5, r6, h6, h7⟩ := h
  simp only [matchClock, Option.bind_eq_some]
  exact ⟨r1 ++ s, matchCount_append _ _ _ _ _ h1,
    r2 ++ s, matchSym_append _ _ _ _ h2,
    r3 ++ s, matchCount_append _ _ _ _ _ h3,
    r4 ++ s, matchSym_append _ _ _ _ h4,
    r5 ++ s, matchCount_append _ _ _ _ _ h5,
    r6 ++ s, matchSym_append _ _ _ _ h6,
    matchCount_append _ _ _ _ _ h7⟩

/-- A line beginning with clock, whitespace, arrow, whitespace, clock matches
the timestamp pattern whatever text follows. -/
theorem tsMatch_true_of_parts :
    ∀ (a b rest : List Char) (u v : Char),
      matchClock a = some [] → matchClock b = some [] →
      isPySpace u = true → isPySpace v = true →
      tsMatch (a ++ u :: '-' :: '-' :: '>' :: v :: (b ++ rest)) = true := by
  intro a b rest u v ha hb hu hv
  have h1 : matchClock (a ++ (u :: '-' :: '-' :: '>' :: v :: (b ++ rest)))
      = some (u :: '-' :: '-' :: '>' :: v :: (b ++ rest)) := by
    have := matchClock_append a [] (u :: '-' :: '-' :: '>' :: v :: (b ++ rest)) ha
    simpa using this
  have h2 : matchClock (b ++ rest) = some rest := by
    have := matchClock_append b [] rest hb
    simpa using this
  have hc1 : matchCount isPySpace 1 (u :: ('-' :: '-' :: '>' :: v :: (b ++ rest)))
      = some ('-' :: '-' :: '>' :: v :: (b ++ rest)) := by
    rw [show matchCount isPySpace 1 (u :: ('-' :: '-' :: '>' :: v :: (b ++ rest)))
        = if isPySpace u then
            matchCount isPySpace 0 ('-' :: '-' :: '>' :: v :: (b ++ rest))
          else none from rfl, if_pos hu]
    rfl
  have hs1 : matchSym '-' ('-' :: '-' :: '>' :: v :: (b ++ rest))
      = some ('-' :: '>' :: v :: (b ++ rest)) := rfl
  have hs2 : matchSym '-' ('-' :: '>' :: v :: (b ++ rest))
      = some ('>' :: v :: (b ++ rest)) := rfl
  have hs3 : matchSym '>' ('>' :: v :: (b ++ rest))
      = some (v :: (b ++ rest)) := rfl
  have hc2 : matchCount isPySpace 1 (v :: (b ++ rest)) = some (b ++ rest) := by
    rw [show matchCount isPySpace 1 (v :: (b ++ rest))
        = if isPySpace v then matchCount isPySpace 0 (b ++ rest)
          else none from rfl, if_pos hv]
    rfl
  simp only [tsMatch, h1, Option.some_bind, hc1, hs1, hs2, hs3, hc2, h2,
    Option.isSome_some]

/-- Claim C10: the timestamp discard is a prefix match. A trimmed line that
begins with a well-shaped timing range is discarded even when arbitrary text
(for example cue settings) follows the range on the same line. -/
theorem timestamp_discard_ignores_trailing_text :
    ∀ (a b rest : List Char) (u v : Char) (tl : List (List Char))
      (raw : List Char),
      matchClock a = some [] → matchClock b = some [] →
      isPySpace u = true → isPySpace v = true →
      pyStrip raw = a ++ u :: '-' :: '-' :: '>' :: v :: (b ++ rest) →
      cleanStep tl raw = tl := by
  intro a b rest u v tl raw ha hb hu hv hline
  apply cleanStep_discard
  rw [hline]
  have hts := tsMatch_true_of_parts a b rest u v ha hb hu hv
  simp [keptLine, hts]

/-- Witness for C10: a timing line carrying cue settings is discarded. -/
theorem timestamp_discard_ignores_trailing_text_witness :
    cleanStep []
      (("00:00:01.000 --> 00:00:04.000 position:50% align:start").data)
      = [] :=
  timestamp_discard_ignores_trailing_text (("00:00:01.000").data)
    (("00:00:04.000").data) ((" position:50% align:start").data) ' ' ' ' [] _
    (by decide) (by decide) (by decide) (by decide) (by decide)

/-! Properties of the line splitter and the newline join. -/

/-- Every line produced by the splitter is free of line boundary characters
(bounded form for induction on the input length). -/
theorem splitlinesAux_breakfree_bounded :
    ∀ (n : Nat) (cs acc : List Char), cs.length ≤ n →
      (∀ c ∈ acc, isLineBreakChar c = false) →
      ∀ l ∈ splitlinesAux acc cs, ∀ c ∈ l, isLineBreakChar c = false := by
  intro n
  induction n with
  | zero =>
    intro cs acc hlen hacc l hl
    have hnil : cs = [] := List.length_eq_zero.mp (Nat.le_zero.mp hlen)
    subst hnil
    by_cases h : acc.isEmpty
    · simp [splitlinesAux, h] at hl
    · simp [splitlinesAux, h] at hl
      subst hl
      intro c hc
      exact hacc c (List.mem_reverse.mp hc)
  | succ n ih =>
    intro cs acc hlen hacc l hl
    match cs with
    | [] =>
      by_cases h : acc.isEmpty
      · simp [splitlinesAux, h] at hl
      · simp [splitlinesAux, h] at hl
        subst hl
        intro c hc
        exact hacc c (List.mem_reverse.mp hc)
    | [c0] =>
      by_cases h : isLineBreakChar c0
      · rw [show splitlinesAux acc [c0] = acc.reverse :: splitlinesAux [] []
            by simp [splitlinesAux, h]] at hl
        rcases List.mem_cons.mp hl with h1 | h2
        · subst h1; intro c hc; exact hacc c (List.mem_reverse.mp hc)
        · exact ih [] [] (by simp) (by simp) l h2
      · rw [show splitlinesAux acc [c0] = splitlinesAux (c0 :: acc) []
            by simp [splitlinesAux, h]] at hl
        refine ih [] (c0 :: acc) (by simp) ?_ l hl
        intro c hc
        rcases List.mem_cons.mp hc with h1 | h2
        · subst h1; simpa using h
        · exact hacc c h2
    | c0 :: d0 :: rest =>
      have hlen' : rest.length + 2 ≤ n + 1 := by simpa using hlen
      by_cases h : isLineBreakChar c0
      · by_cases hp : c0 = '\r' ∧ d0 = '\n'
        · obtain ⟨hc0, hd0⟩ := hp
          subst hc0; subst hd0
          rw [show splitlinesAux acc ('\r' :: '\n' :: rest)
              = acc.reverse :: splitlinesAux [] rest
              by simp [splitlinesAux, isLineBreakChar]] at hl
          rcases List.mem_cons.mp hl with h1 | h2
          · subst h1; intro c hc; exact hacc c (List.mem_reverse.mp hc)
          · exact ih rest [] (by omega) (by simp) l h2
        · rw [show splitlinesAux acc (c0 :: d0 :: rest)
              = acc.reverse :: splitlinesAux [] (d0 :: rest)
              by simp [splitlinesAux, h, hp]] at hl
          rcases List.mem_cons.mp hl with h1 | h2
          · subst h1; intro c hc; exact hacc c (List.mem_reverse.mp hc)
          · exact ih (d0 :: rest) [] (by simp; omega) (by simp) l h2
      · rw [show splitlinesAux acc (c0 :: d0 :: rest)
            = splitlinesAux (c0 :: acc) (d0 :: rest)
            by simp [splitlinesAux, h]] at hl
        refine ih (d0 :: rest) (c0 :: acc) (by simp; omega) ?_ l hl
        intro c hc
        rcases List.mem_cons.mp hc with h1 | h2
        · subst h1; simpa using h
        · exact hacc c h2

/-- Every line of a split document is free of line boundary characters. -/
theorem splitlines_breakfree (d : List Char) :
    ∀ l ∈ splitlines d, ∀ c ∈ l, isLineBreakChar c = false :=
  fun l hl =>
    splitlinesAux_breakfree_bounded d.length d [] (le_refl _) (by simp) l hl

/-- The splitter on a boundary-free input yields that input as the single
line (or nothing when the input and the carried line are empty). -/
theorem splitlinesAux_no_break :
    ∀ (l acc : List Char), (∀ c ∈ l, isLineBreakChar c = false) →
      splitlinesAux acc l =
        if (acc.reverse ++ l).isEmpty then [] else [acc.reverse ++ l] := by
  intro l
  induction l with
  | nil =>
    intro acc _
    by_cases h : acc = []
    · subst h; simp [splitlinesAux]
    · have h1 : acc.isEmpty = false := by
        simpa [List.isEmpty_iff] using h
      have h2 : ¬ acc.reverse ++ [] = [] := by simpa using h
      simp [splitlinesAux, h1, h2, h]
  | cons c l ih =>
    intro acc h
    have hc : isLineBreakChar c = false := h c (List.mem_cons_self c l)
    cases l with
    | nil =>
      rw [show splitlinesAux acc [c] = splitlinesAux (c :: acc) []
          by simp [splitlinesAux, hc]]
      simp [splitlinesAux]
    | cons d rest =>
      rw [show splitlinesAux acc (c :: d :: rest)
          = splitlinesAux (c :: acc) (d :: rest)
          by simp [splitlinesAux, hc]]
      rw [ih (c :: acc) (fun e he => h e (List.mem_cons_of_mem c he))]
      simp

/-- The splitter cuts at a newline that follows a boundary-free segment. -/
theorem splitlinesAux_newline :
    ∀ (l rest acc : List Char), (∀ c ∈ l, isLineBreakChar c = false) →
      splitlinesAux acc (l ++ '\n' :: rest)
        = (acc.reverse ++ l) :: splitlinesAux [] rest := by
  intro l
  induction l with
  | nil =>
    intro rest acc _
    simp only [List.nil_append]
    cases rest with
    | nil => simp [splitlinesAux, isLineBreakChar]
    | cons d rest' => simp [splitlinesAux, isLineBreakChar]
  | cons c l ih =>
    intro rest acc h
    have hc : isLineBreakChar c = false := h c (List.mem_cons_self c l)
    cases hE : l ++ '\n' :: rest with
    | nil => exact absurd hE (by simp)
    | cons e tail =>
      rw [List.cons_append, hE]
      rw [show splitlinesAux acc (c :: e :: tail)
          = splitlinesAux (c :: acc) (e :: tail) by simp [splitlinesAux, hc]]
      rw [← hE]
      rw [ih rest (c :: acc) (fun x hx => h x (List.mem_cons_of_mem c hx))]
      simp

/-- Splitting the newline join of boundary-free lines recovers the lines,
provided the last line is nonempty (a trailing empty line would vanish, as a
trailing newline produces no line in Python splitlines). -/
theorem splitlines_joinLines :
    ∀ M : List (List Char),
      (∀ l ∈ M, ∀ c ∈ l, isLineBreakChar c = false) →
      M.getLast? ≠ some [] →
      splitlines (joinLines M) = M := by
  intro M
  induction M with
  | nil => intro _ _; rfl
  | cons l M ih =>
    intro hbf hlast
    cases M with
    | nil =>
      have hl : ¬ l = [] := by
        intro h; apply hlast; rw [h]; rfl
      show splitlinesAux [] (joinLines [l]) = [l]
      rw [show joinLines [l] = l from rfl]
      rw [splitlinesAux_no_break l [] (hbf l (List.mem_cons_self _ _))]
      simp [List.isEmpty_iff, hl]
    | cons m M' =>
      show splitlinesAux [] (joinLines (l :: m :: M')) = l :: m :: M'
      rw [show joinLines (l :: m :: M') = l ++ '\n' :: joinLines (m :: M')
        from rfl]
      rw [splitlinesAux_newline l (joinLines (m :: M')) []
        (hbf l (List.mem_cons_self _ _))]
      rw [List.getLast?_cons_cons] at hlast
      rw [show splitlinesAux [] (joinLines (m :: M'))
          = splitlines (joinLines (m :: M')) from rfl]
      rw [ih (fun x hx => hbf x (List.mem_cons_of_mem _ hx)) hlast]
      simp

/-- When the last of at least two lines is empty, the newline join ends with
the newline character. -/
theorem joinLines_getLast_newline :
    ∀ M : List (List Char), M.getLast? = some [] → 2 ≤ M.length →
      (joinLines M).getLast? = some '\n' := by
  intro M
  induction M with
  | nil => intro h _; simp at h
  | cons l M ih =>
    intro hlast hlen
    cases M with
    | nil => simp at hlen
    | cons m M' =>
      rw [show joinLines (l :: m :: M') = l ++ '\n' :: joinLines (m :: M')
        from rfl]
      rw [List.getLast?_append_of_ne_nil l (by simp)]
      cases M' with
      | nil =>
        have hm : m = [] := by
          rw [List.getLast?_cons_cons] at hlast
          simpa using hlast
        subst hm
        rfl
      | cons p P =>
        have hrec := ih (by rw [List.getLast?_cons_cons] at hlast; exact hlast)
          (by simp)
        have hJ : ¬ joinLines (m :: p :: P) = [] := by
          intro hE; rw [hE] at hrec; simp at hrec
        obtain ⟨j, J', hJJ⟩ := List.exists_cons_of_ne_nil hJ
        rw [hJJ, List.getLast?_cons_cons, ← hJJ]
        exact hrec

/-- The tag scanner only deletes characters: its output embeds into the
carried prefix followed by the input. -/
theorem stripAux_sublist :
    ∀ (cs : List Char) (st : Option (List Char)),
      (stripAux st cs).Sublist (stripAuxCarry st ++ cs) := by
  intro cs
  induction cs with
  | nil =>
    intro st
    cases st with
    | none => simp [stripAux, stripAuxCarry]
    | some buf => simp [stripAux, stripAuxCarry]
  | cons c rest ih =>
    intro st
    cases st with
    | none =>
      by_cases hc : c = '<'
      · subst hc
        rw [show stripAux none ('<' :: rest) = stripAux (some []) rest
          by simp [stripAux]]
        have h := ih (some [])
        simpa [stripAuxCarry] using h
      · rw [stripAux_none_cons_ne c rest hc]
        have h := (ih none).cons₂ c
        simpa [stripAuxCarry] using h
    | some buf =>
      by_cases hc : c = '>'
      · subst hc
        by_cases hb : buf.isEmpty
        · have hbe : buf = [] := List.isEmpty_iff.mp hb
          subst hbe
          rw [show stripAux (some []) ('>' :: rest)
              = '<' :: '>' :: stripAux none rest by simp [stripAux]]
          have h := ((ih none).cons₂ '>').cons₂ '<'
          simpa [stripAuxCarry] using h
        · have hbf : buf.isEmpty = false := by simpa using hb
          rw [show stripAux (some buf) ('>' :: rest) = stripAux none rest
            by simp [stripAux, hbf]]
          refine List.Sublist.trans (by simpa using ih none) ?_
          exact List.Sublist.trans (List.sublist_cons_self '>' rest)
            (List.sublist_append_right _ _)
      · rw [show stripAux (some buf) (c :: rest)
            = stripAux (some (c :: buf)) rest by simp [stripAux, hc]]
        have h := ih (some (c :: buf))
        simpa [stripAuxCarry, List.reverse_cons, List.append_assoc] using h

/-- Tag removal yields a subsequence of its input. -/
theorem stripTags_sublist (l : List Char) : (stripTags l).Sublist l := by
  have h := stripAux_sublist l none
  simpa [stripAuxCarry, stripTags] using h

/-- Trimming yields a subsequence of its input. -/
theorem pyStrip_sublist (l : List Char) : (pyStrip l).Sublist l := by
  have h1 : (l.dropWhile isPySpace).Sublist l := List.dropWhile_sublist _
  have h2 : ((l.dropWhile isPySpace).reverse.dropWhile isPySpace).Sublist
      (l.dropWhile isPySpace).reverse := List.dropWhile_sublist _
  have h3 := h2.reverse
  simp only [List.reverse_reverse] at h3
  exact h3.trans h1

/-- Every line the loop stores is the tag-stripped form of the trimmed form
of some input line (or was already in the starting accumulator). -/
theorem cleanVttLines_mem_shape :
    ∀ (ls acc : List (List Char)) (x : List Char),
      x ∈ List.foldl cleanStep acc ls →
      x ∈ acc ∨ ∃ t ∈ ls, x = stripTags (pyStrip t) := by
  intro ls
  induction ls with
  | nil => intro acc x hx; exact Or.inl hx
  | cons l ls ih =>
    intro acc x hx
    rw [List.foldl_cons] at hx
    rcases ih (cleanStep acc l) x hx with h | ⟨t, ht, hteq⟩
    · by_cases hk : keptLine (pyStrip l) = true
      · rw [cleanStep_kept acc l hk] at h
        by_cases hd : acc.getLast? = some (pyStrip l)
        · rw [if_pos hd] at h; exact Or.inl h
        · rw [if_neg hd] at h
          rcases List.mem_append.mp h with h1 | h2
          · exact Or.inl h1
          · exact Or.inr ⟨l, List.mem_cons_self _ _, by simpa using h2⟩
      · rw [cleanStep_discard acc l (by simpa using hk)] at h
        exact Or.inl h
    · exact Or.inr ⟨t, List.mem_cons_of_mem _ ht, hteq⟩

/-- The loop is the identity on a line sequence whose lines all survive the
structural checks, are fixed by trimming and by tag removal, and hold no
adjacent duplicates, provided the accumulator seam also has no duplicate. -/
theorem foldl_cleanStep_fixed :
    ∀ (M acc : List (List Char)),
      (∀ l ∈ M, keptLine l = true ∧ pyStrip l = l ∧ stripTags l = l) →
      List.Chain' (· ≠ ·) M →
      (∀ a, acc.getLast? = some a → M.head? ≠ some a) →
      List.foldl cleanStep acc M = acc ++ M := by
  intro M
  induction M with
  | nil => intro acc _ _ _; simp
  | cons l M ih =>
    intro acc h hchain hseam
    obtain ⟨hk, hps, hst⟩ := h l (List.mem_cons_self _ _)
    have hstep : cleanStep acc l = acc ++ [l] := by
      rw [cleanStep_kept acc l (by rw [hps]; exact hk), hps, hst]
      rw [if_neg ?_]
      intro hd
      exact hseam l hd rfl
    have hseam' : ∀ a, (acc ++ [l]).getLast? = some a → M.head? ≠ some a := by
      intro a ha
      rw [List.getLast?_concat] at ha
      have ha' : l = a := by injection ha
      subst ha'
      intro hhead
      exact (List.chain'_cons'.mp hchain).1 l (Option.mem_def.mpr hhead) rfl
    have hrec := ih (acc ++ [l])
      (fun d hd => h d (List.mem_cons_of_mem _ hd)) hchain.tail hseam'
    rw [List.foldl_cons, hstep, hrec]
    simp

/-- The executable adjacent-duplicate check implies the chain property. -/
theorem chain_of_noAdjacentDup :
    ∀ M : List (List Char), noAdjacentDup M = true →
      List.Chain' (· ≠ ·) M := by
  intro M
  induction M with
  | nil => intro _; exact List.chain'_nil
  | cons a M ih =>
    cases M with
    | nil => intro _; exact List.chain'_singleton _
    | cons b M' =>
      intro h
      simp only [noAdjacentDup, Bool.and_eq_true] at h
      rw [List.chain'_cons]
      exact ⟨by simpa using h.1, ih h.2⟩

/-- Counterexample to claim C7 as stated: for the single-line document whose
line is a spaced word wrapped in tags, the cleaned output contains no header,
index, timestamp or annotation line and no consecutive duplicates, yet a
second application of clean trims the surviving spaces and changes the
result. -/
theorem idempotence_counterexample :
    (∀ l ∈ splitlines ((clean_vtt ("<b> hi </b>")).data),
      (pyStrip l == ("WEBVTT").data) = false ∧
      pyIsDigitStr (pyStrip l) = false ∧
      tsMatch (pyStrip l) = false ∧
      (List.isPrefixOf (("NOTE").data) (pyStrip l) ||
        List.isPrefixOf (("STYLE").data) (pyStrip l)) = false) ∧
    noAdjacentDup (splitlines ((clean_vtt ("<b> hi </b>")).data)) = true ∧
    clean_vtt (clean_vtt ("<b> hi </b>")) ≠ clean_vtt ("<b> hi </b>") := by
  refine ⟨by decide, by decide, by decide⟩

/-- Amended claim C7: clean is idempotent on every input whose cleaned form
consists of lines that all survive the structural discard checks (in
particular are nonempty), are fixed by trimming, contain no adjacent
duplicates, and whose text does not end with a newline. -/
theorem clean_vtt_conditional_idempotent :
    ∀ x : String,
      (∀ l ∈ splitlines ((clean_vtt x).data),
        keptLine l = true ∧ pyStrip l = l) →
      noAdjacentDup (splitlines ((clean_vtt x).data)) = true →
      ((clean_vtt x).data).getLast? ≠ some '\n' →
      clean_vtt (clean_vtt x) = clean_vtt x := by
  intro x hlines hdup hnl
  by_cases hempty : joinLines (cleanVttLines (splitlines x.data)) = []
  · have hdx : (clean_vtt x).data = [] := hempty
    have h1 : clean_vtt (clean_vtt x) = String.mk [] := by
      show String.mk
        (joinLines (cleanVttLines (splitlines ((clean_vtt x).data))))
          = String.mk []
      rw [hdx]
      rfl
    rw [h1]
    show String.mk []
        = String.mk (joinLines (cleanVttLines (splitlines x.data)))
    rw [hempty]
  · have hdx : (clean_vtt x).data
        = joinLines (cleanVttLines (splitlines x.data)) := rfl
    have hbf : ∀ l ∈ cleanVttLines (splitlines x.data), ∀ c ∈ l,
        isLineBreakChar c = false := by
      intro l hl c hc
      rcases cleanVttLines_mem_shape (splitlines x.data) [] l hl with
        h0 | ⟨t, ht, hteq⟩
      · simp at h0
      · subst hteq
        have hsub : (stripTags (pyStrip t)).Sublist t :=
          (stripTags_sublist (pyStrip t)).trans (pyStrip_sublist t)
        exact splitlines_breakfree x.data t ht c (hsub.subset hc)
    have hlast0 : (cleanVttLines (splitlines x.data)).getLast? ≠ some [] := by
      intro hlast
      cases hL : cleanVttLines (splitlines x.data) with
      | nil => rw [hL] at hlast; simp at hlast
      | cons a M =>
        cases M with
        | nil =>
          rw [hL] at hlast
          have ha : a = [] := by simpa using hlast
          subst ha
          rw [hL] at hempty
          exact hempty rfl
        | cons b M' =>
          rw [hL] at hlast
          have hnew := joinLines_getLast_newline (a :: b :: M') hlast (by simp)
          rw [hL] at hdx
          exact hnl (by rw [hdx]; exact hnew)
    have hrt : splitlines (joinLines (cleanVttLines (splitlines x.data)))
        = cleanVttLines (splitlines x.data) :=
      splitlines_joinLines _ hbf hlast0
    rw [hdx, hrt] at hlines hdup
    have hchain := chain_of_noAdjacentDup _ hdup
    have hfix : ∀ l ∈ cleanVttLines (splitlines x.data),
        keptLine l = true ∧ pyStrip l = l ∧ stripTags l = l := by
      intro l hl
      obtain ⟨hk, hps⟩ := hlines l hl
      refine ⟨hk, hps, ?_⟩
      rcases cleanVttLines_mem_shape (splitlines x.data) [] l hl with
        h0 | ⟨t, ht, hteq⟩
      · simp at h0
      · rw [hteq]; exact stripTags_idem (pyStrip t)
    have hid : List.foldl cleanStep [] (cleanVttLines (splitlines x.data))
        = [] ++ cleanVttLines (splitlines x.data) :=
      foldl_cleanStep_fixed _ [] hfix hchain (by intro a ha; simp at ha)
    show String.mk
      (joinLines (cleanVttLines (splitlines ((clean_vtt x).data))))
        = clean_vtt x
    rw [hdx, hrt]
    show String.mk
      (joinLines (List.foldl cleanStep [] (cleanVttLines (splitlines x.data))))
        = clean_vtt x
    rw [hid]
    simp only [List.nil_append]
    rfl

/-- Witness for amended C7 on a plain two-line document. -/
theorem clean_vtt_conditional_idempotent_witness :
    clean_vtt (clean_vtt ("Hello\nWorld")) = clean_vtt ("Hello\nWorld") :=
  clean_vtt_conditional_idempotent ("Hello\nWorld") (by decide) (by decide)
    (by decide)
